import Mathlib

/-!
Verification development for `scripts/update_jobs_pages.py` (and the variant
script `scripts:update_jobs_pages.py`), a batch tool that discovers the
careers/vacancies page of each organization in a tabular dataset.

The Python code is shallowly embedded here:
* Python strings are `List Char` (`Str`); Python `str.lower` is modelled for
  ASCII letters, which covers every hint constant in the scripts.
* The network (`requests.get` / `requests.head`), the HTML parser
  (BeautifulSoup title/body/anchor extraction) and `urllib.parse.urljoin`
  are modelled as an oracle structure `Http`; `none` models a raised
  exception / failed fetch.
* `urllib.parse.urlparse` is embedded directly (scheme and netloc splitting,
  including the `ValueError` it raises on a netloc with mismatched square
  brackets, modelled as `none`).
* CSV tables handled through pandas are modelled by `DF` (a column list plus
  one cell-valuation per row); cells are strings, NaN, or ints.
* Fallible Python code (code that can raise) returns `Option`; pure code is
  embedded as total functions.
-/

namespace UJP

/-- Python strings are modelled as lists of characters. -/
abbrev Str := List Char

/-- Shorthand to write a modelled Python string from a Lean literal. -/
def str (s : String) : Str := s.data

/-- Python `str.lower`, modelled on ASCII letters (the scripts' hint
constants are all ASCII; non-ASCII characters are left unchanged). -/
def lowerChar : Char → Char
  | 'A' => 'a' | 'B' => 'b' | 'C' => 'c' | 'D' => 'd' | 'E' => 'e' | 'F' => 'f'
  | 'G' => 'g' | 'H' => 'h' | 'I' => 'i' | 'J' => 'j' | 'K' => 'k' | 'L' => 'l'
  | 'M' => 'm' | 'N' => 'n' | 'O' => 'o' | 'P' => 'p' | 'Q' => 'q' | 'R' => 'r'
  | 'S' => 's' | 'T' => 't' | 'U' => 'u' | 'V' => 'v' | 'W' => 'w' | 'X' => 'x'
  | 'Y' => 'y' | 'Z' => 'z' | c => c

/-- Python `str.lower` on a whole string. -/
def lower (l : Str) : Str := l.map lowerChar

/-- Python `str.strip` whitespace test (ASCII whitespace characters). -/
def isWS (c : Char) : Bool :=
  c = ' ' || c = '\t' || c = '\n' || c = '\r' || c = '\x0b' || c = '\x0c'

/-- Drop trailing whitespace (the right half of Python `str.strip`). -/
def trimRight (l : Str) : Str :=
  l.foldr (fun c acc => if acc.isEmpty && isWS c then acc else c :: acc) []

/-- Python `str.strip`: drop whitespace from both ends. -/
def trim (l : Str) : Str := trimRight (l.dropWhile isWS)

/-- Python `str.startswith pat` / a regex literal match at the start. -/
def leadsWith : Str → Str → Bool
  | [], _ => true
  | _ :: _, [] => false
  | p :: ps, c :: cs => p == c && leadsWith ps cs

/-- Python `pat in s` (substring containment). -/
def hasSub (pat : Str) : Str → Bool
  | [] => pat.isEmpty
  | c :: cs => leadsWith pat (c :: cs) || hasSub pat cs

/-- Python `s.endswith suf`. -/
def endsWithStr (suf l : Str) : Bool := leadsWith suf.reverse l.reverse

/-- Python `s.replace("www.", "")`: remove every (non-overlapping,
left-to-right) occurrence of `www.`. -/
def removeWWW : Str → Str
  | 'w' :: 'w' :: 'w' :: '.' :: rest => removeWWW rest
  | c :: cs => c :: removeWWW cs
  | [] => []

/-- Characters at which Python `str.splitlines` breaks a line (the common
ASCII line separators; the rare Unicode separators behave the same way). -/
def lineBreakChar (c : Char) : Bool :=
  c = '\n' || c = '\r' || c = '\x0b' || c = '\x0c' ||
  c = '\x1c' || c = '\x1d' || c = '\x1e' || c = '\x85'

/-- Worker for `splitLines`: `cur` holds the current line reversed; a
`"\r\n"` pair counts as a single line break. -/
def splitLinesGo (cur : Str) : Str → List Str
  | [] => [cur.reverse]
  | '\r' :: '\n' :: cs =>
    if cs.isEmpty then [cur.reverse] else cur.reverse :: splitLinesGo [] cs
  | c :: cs =>
    if lineBreakChar c then
      if cs.isEmpty then [cur.reverse] else cur.reverse :: splitLinesGo [] cs
    else splitLinesGo (c :: cur) cs

/-- Python `str.splitlines` (a trailing line break yields no empty line). -/
def splitLines (l : Str) : List Str :=
  if l.isEmpty then [] else splitLinesGo [] l

/-- Python `line.split(":", 1)[1]` for a line known to contain a colon:
everything after the first colon (empty when there is no colon). -/
def afterColon (l : Str) : Str := ((l.dropWhile (fun c => c != ':')).drop 1)

/-- Worker for `dedupFirst`: keep an element unless it was already seen. -/
def dedupSeen [DecidableEq α] (seen : List α) : List α → List α
  | [] => []
  | x :: xs =>
    if x ∈ seen then dedupSeen seen xs else x :: dedupSeen (x :: seen) xs

/-- Python `list(dict.fromkeys(xs))`: deduplicate keeping first occurrences
in order. -/
def dedupFirst [DecidableEq α] (l : List α) : List α := dedupSeen [] l

/-- Valid characters of a URL scheme in `urllib.parse` (ASCII letters,
digits, `+`, `-`, `.`). -/
def schemeChar (c : Char) : Bool := c.isAlphanum || c = '+' || c = '-' || c = '.'

/-- Split a string at its first colon, returning the parts before and after
it, or `none` when there is no colon. -/
def colonSplit : Str → Option (Str × Str)
  | [] => none
  | c :: cs =>
    if c = ':' then some ([], cs)
    else (colonSplit cs).map (fun pr => (c :: pr.1, pr.2))

/-- Scheme splitting of `urllib.parse.urlsplit`: when the part before the
first colon is a valid scheme (nonempty, starts with a letter, all scheme
characters), return it lowercased together with the remainder; otherwise the
scheme is empty and the input is unchanged. -/
def splitScheme (u : Str) : Str × Str :=
  match colonSplit u with
  | none => ([], u)
  | some (pre, post) =>
    if pre ≠ [] ∧ (pre.headD ' ').isAlpha ∧ pre.all schemeChar
    then (lower pre, post) else ([], u)

/-- Characters that end the netloc in `urllib.parse.urlsplit`. -/
def stopChar (c : Char) : Bool := c = '/' || c = '?' || c = '#'

/-- Netloc splitting of `urllib.parse.urlsplit`: when the remainder after
the scheme starts with `//`, the netloc runs to the next `/`, `?` or `#`. -/
def splitNetloc (rest : Str) : Str × Str :=
  if leadsWith (str "//") rest then
    ((rest.drop 2).takeWhile (fun c => !stopChar c),
     (rest.drop 2).dropWhile (fun c => !stopChar c))
  else ([], rest)

/-- The netloc bracket check of `urllib.parse.urlsplit`: a `[` without a `]`
(or vice versa) raises `ValueError: Invalid IPv6 URL`. -/
def bracketBad (nl : Str) : Bool :=
  (decide ('[' ∈ nl) && !decide (']' ∈ nl)) ||
    (decide (']' ∈ nl) && !decide ('[' ∈ nl))

/-- The parts of a parsed URL that the scripts use. -/
structure UrlParts where
  scheme : Str
  netloc : Str
deriving DecidableEq

/-- The `urllib.parse.urlparse`, restricted to the `scheme`/`netloc` fields the
scripts read; `none` models the `ValueError` raised on mismatched square
brackets in the netloc. -/
def urlparse (u : Str) : Option UrlParts :=
  let sp := splitScheme u
  let np := splitNetloc sp.2
  if bracketBad np.1 then none else some ⟨sp.1, np.1⟩

/-- The scripts' regex test `re.match("^https?://", u, re.I)`. -/
def startsHttpScheme (t : Str) : Bool :=
  leadsWith (str "http://") (lower t) || leadsWith (str "https://") (lower t)

/-- Line 60-61 of the main script: prepend `https://` when the regex does
not match. -/
def applyScheme (t : Str) : Str :=
  if startsHttpScheme t then t else str "https://" ++ t

/-- The `norm_root` of the main script (`scripts/update_jobs_pages.py`, lines
56-64): trim, default the scheme, parse, then build `scheme://host` where
`host` is the netloc with every occurrence of `www.` removed
(`p.netloc.replace("www.", "")`).  `none` models the `ValueError` that
`urlparse` raises on a netloc with mismatched brackets; the `isinstance`
guard is covered by embedding only string inputs. -/
def norm_root (url : Str) : Option Str :=
  let t := trim url
  if t.isEmpty then some []
  else
    match urlparse (applyScheme t) with
    | none => none
    | some p => some (p.scheme ++ str "://" ++ removeWWW p.netloc)

/-- The `norm_root` of the variant script (`scripts:update_jobs_pages.py`, lines
27-37), which strips only a single leading `www.` from the host. -/
def norm_root_v2 (url : Str) : Option Str :=
  let t := trim url
  if t.isEmpty then some []
  else
    match urlparse (applyScheme t) with
    | none => none
    | some p =>
      some (p.scheme ++ str "://" ++
        (if leadsWith (str "www.") p.netloc then p.netloc.drop 4 else p.netloc))

/-- The `same_site` (main script, lines 67-73): hosts equal after removing
`www.`, or the candidate host is a subdomain; any parse error gives
`False`. -/
def same_site (root candidate : Str) : Bool :=
  match urlparse root, urlparse candidate with
  | some pr, some pc =>
    let r := removeWWW pr.netloc
    let c := removeWWW pc.netloc
    r == c || endsWithStr ('.' :: r) c
  | _, _ => false

/-- Stable descending insertion (equal keys keep the existing order). -/
def insertDesc (key : α → Int) (x : α) : List α → List α
  | [] => [x]
  | y :: ys => if key y ≤ key x then x :: y :: ys else y :: insertDesc key x ys

/-- Python `sorted(l, key := key, reverse := True)`: stable descending sort
(elements with equal keys keep their original relative order). -/
def sortDesc (key : α → Int) : List α → List α
  | [] => []
  | x :: xs => insertDesc key x (sortDesc key xs)

/-- The `GOOD_URL_HINTS` (main script, lines 23-27). -/
def GOOD_URL_HINTS : List Str :=
  [str "career", str "careers", str "job", str "jobs", str "vacanc",
   str "recruit", str "work-with-us", str "work-for-us", str "working-for-us",
   str "join-our-team", str "join-us", str "opportunit", str "vacancy"]

/-- The `BAD_URL_HINTS` (main script, lines 28-31). -/
def BAD_URL_HINTS : List Str :=
  [str "membership", str "member", str "join-our-community", str "donate",
   str "shop", str "volunteer", str "training", str "event", str "news",
   str "blog", str "press", str "privacy", str "cookie", str "terms"]

/-- The `GOOD_TEXT_HINTS` (main script, lines 33-36). -/
def GOOD_TEXT_HINTS : List Str :=
  [str "vacancies", str "jobs", str "careers", str "work with us",
   str "join our team", str "recruitment", str "current opportunities",
   str "latest vacancies", str "apply now", str "closing date", str "salary"]

/-- The `BAD_TEXT_HINTS` (main script, lines 37-40). -/
def BAD_TEXT_HINTS : List Str :=
  [str "membership", str "become a member", str "join the network",
   str "sign up", str "subscription", str "donate", str "volunteer",
   str "fundraise", str "newsletter"]

/-- The `COMMON_PATHS` (main script, lines 42-46). -/
def COMMON_PATHS : List Str :=
  [str "/careers", str "/jobs", str "/vacancies", str "/recruitment",
   str "/work-with-us", str "/work-for-us", str "/working-for-us",
   str "/join-our-team", str "/join-us", str "/about/work-with-us",
   str "/about-us/join-our-team"]

/-- The seven positive strings of `score_candidate`'s first loop (main
script, line 101). -/
def SCORE_GOOD : List Str :=
  [str "vacanc", str "career", str "jobs", str "recruit",
   str "work-with-us", str "work for us", str "join our team"]

/-- The `any(x in s for x in hints)`. -/
def anyHas (hints : List Str) (s : Str) : Bool := hints.any (fun x => hasSub x s)

/-- The `looks_jobish` (main script, lines 89-93). -/
def looks_jobish (url : Str) : Bool :=
  let lu := lower url
  if anyHas BAD_URL_HINTS lu then false else anyHas GOOD_URL_HINTS lu

/-- The `score_candidate` (main script, lines 96-115), embedded with the same
loop structure: +12/+10 per positive hint in url/text, +6 for `opportun`,
-40 once per negative hint found in url or text, plus the path-depth
bonus `max(0, 10 - lu.count("/"))`. -/
def score_candidate (url anchor_text : Str) : Int :=
  let lu := lower url
  let lt := lower anchor_text
  let s1 : Int := SCORE_GOOD.foldl
    (fun acc g =>
      (acc + (if hasSub g lu then 12 else 0)) + (if hasSub g lt then 10 else 0)) 0
  let s2 : Int :=
    if hasSub (str "opportun") lu || hasSub (str "opportun") lt then s1 + 6 else s1
  let s3 : Int := BAD_URL_HINTS.foldl
    (fun acc b => if hasSub b lu || hasSub b lt then acc - 40 else acc) s2
  s3 + max 0 (10 - (List.count '/' lu : Int))

/-- The oracle for everything the scripts obtain from the outside world:
the network and the HTML parser.  `none` models a raised exception.
Quantifying theorems over `Http` covers every possible behaviour of the
real network, parser and `urljoin`. -/
structure Http where
  /-- The `safe_get`: the body text of a successful GET, `none` on any error
  (timeout, DNS, non-2xx raised by `raise_for_status`). -/
  get : Str → Option Str
  /-- The `session.head` inside `safe_head`: final status code and resolved URL
  after redirects, `none` when the request raises. -/
  head : Str → Option (Int × Str)
  /-- GET plus BeautifulSoup in `validate_jobs_page`: the page's title text
  and visible body text (before lowercasing), `none` when the fetch fails. -/
  page : Str → Option (Str × Str)
  /-- The `urllib.parse.urljoin base href`; `none` models the rare parse error
  `urljoin` can raise, which the homepage harvester catches. -/
  ujoin : Str → Str → Option Str
  /-- GET plus BeautifulSoup in `find_from_homepage`: the (anchor text,
  href attribute) pairs of the page at the URL, `none` on fetch failure. -/
  anchors : Str → Option (List (Str × Str))

/-- The `safe_head` (main script, lines 82-86): the resolved URL when the
status is < 400, the empty string otherwise; `none` when the HEAD raises. -/
def safe_head (h : Http) (url : Str) : Option Str :=
  (h.head url).map (fun su => if su.1 < 400 then su.2 else [])

/-- Clamp `max(0, min(100, confidence))` (main script, line 138). -/
def clamp01 (x : Int) : Int := max 0 (min 100 x)

/-- The confidence computed by `validate_jobs_page` before clamping (main
script, lines 126-136), from the lowercased title and body text. -/
def rawConf (title body : Str) : Int :=
  30
  + (if anyHas [str "vacanc", str "career", str "jobs", str "recruit"] title
     then 25 else 0)
  + (if anyHas [str "apply now", str "closing date", str "salary",
                str "job description", str "specification"] body
     then 25 else 0)
  + (if anyHas [str "current vacancies", str "vacancies", str "our vacancies",
                str "latest vacancies"] body
     then 20 else 0)
  - (if anyHas BAD_TEXT_HINTS body then 35 else 0)

/-- The `validate_jobs_page` (main script, lines 118-146): on fetch failure
`(0, "unreachable")`, otherwise the clamped confidence with the threshold
labels at 70 and 45. -/
def validate_jobs_page (h : Http) (url : Str) : Int × Str :=
  match h.page url with
  | none => (0, str "unreachable")
  | some tb =>
    let confidence := clamp01 (rawConf (lower tb.1) (lower tb.2))
    if 70 ≤ confidence then (confidence, str "jobs_page")
    else if 45 ≤ confidence then (confidence, str "maybe_jobs")
    else (confidence, str "unlikely_jobs")

/-- Helper for `extract_sitemap_urls`: scan for the closing `</loc>`
(case-insensitively), collecting the content; fails at a newline or the end
of input, matching the regex `.` which does not cross lines. -/
def findCloseLoc : Str → Option (Str × Str)
  | [] => none
  | c :: cs =>
    if leadsWith (str "</loc>") (lower (List.take 6 (c :: cs))) then
      some ([], List.drop 6 (c :: cs))
    else if c = '\n' then none
    else (findCloseLoc cs).map (fun pr => (c :: pr.1, pr.2))

/-- Worker for `extractLocs`, structurally recursive on a fuel that bounds
the input length (each step strictly shortens the input, so a fuel equal to
the initial length is never exhausted). -/
def extractLocsGo : Nat → Str → List Str
  | 0, _ => []
  | _, [] => []
  | fuel + 1, c :: cs =>
    if leadsWith (str "<loc>") (lower (List.take 5 (c :: cs))) then
      match findCloseLoc (List.drop 5 (c :: cs)) with
      | some pr => pr.1 :: extractLocsGo fuel pr.2
      | none => extractLocsGo fuel cs
    else extractLocsGo fuel cs

/-- The `extract_sitemap_urls` (main script, lines 149-150): the semantics of
`re.findall("<loc>(.*?)</loc>", xml, re.I)` — scan left to right; at each
case-insensitive `<loc>` take the shortest newline-free content followed by
`</loc>`, then continue after the match. -/
def extractLocs (l : Str) : List Str := extractLocsGo l.length l

/-- The sitemap URL list assembled by `find_from_sitemap` (main script,
lines 154-166): the `Sitemap:` directives of `robots.txt` (robots failure
is swallowed), with the two well-known fallbacks when none are declared. -/
def sitemapsOf (h : Http) (root : Str) : List Str :=
  let declared :=
    match h.get (root ++ str "/robots.txt") with
    | none => []
    | some robots =>
      (splitLines robots).filterMap (fun line =>
        if leadsWith (str "sitemap:") (lower line)
        then some (trim (afterColon line)) else none)
  if declared.isEmpty then [root ++ str "/sitemap.xml", root ++ str "/sitemap_index.xml"]
  else declared

/-- The fetch loop of `find_from_sitemap` (main script, lines 168-177) with
its running state: `acc` is `all_urls`, `used` is `sitemap_used`; each
sitemap that fetches and yields `<loc>` URLs extends `acc` and overwrites
`used`. -/
def fetchLoopGo (h : Http) (acc : List Str) (used : Str) : List Str → List Str × Str
  | [] => (acc, used)
  | sm :: rest =>
    match h.get sm with
    | none => fetchLoopGo h acc used rest
    | some xml =>
      let urls := extractLocs xml
      if urls.isEmpty then fetchLoopGo h acc used rest
      else fetchLoopGo h (acc ++ urls) sm rest

/-- The fetch loop of `find_from_sitemap` started on the empty state. -/
def fetchLoop (h : Http) (sms : List Str) : List Str × Str :=
  fetchLoopGo h [] [] sms

/-- The best-candidate selection loop shared by the sitemap and homepage
resolvers (main script, lines 195-203 and 234-241): validate each of the
top candidates and keep the first one maximizing `score + confidence`
(strict `>` comparison, initial best score -999). -/
def selectBest (h : Http) (score : α → Int) (getUrl : α → Str)
    (top : List α) : Str :=
  (top.foldl
    (fun best u =>
      let conf := (validate_jobs_page h (getUrl u)).1
      let combined := score u + conf
      if best.2 < combined then (getUrl u, combined) else best)
    (([] : Str), (-999 : Int))).1

/-- The `find_from_sitemap` (main script, lines 153-204): fetch the sitemaps,
filter the extracted URLs to same-site job-looking candidates, deduplicate,
score-sort descending, validate the top 6 and return the best together with
`sitemap_used`. -/
def find_from_sitemap (h : Http) (root : Str) : Str × Str :=
  let fl := fetchLoop h (sitemapsOf h root)
  let candidates :=
    (fl.1.filter (fun u => same_site root u && looks_jobish u))
  let candidates := dedupFirst candidates
  if candidates.isEmpty then ([], fl.2)
  else
    let top := (sortDesc (fun u => score_candidate u []) candidates).take 6
    (selectBest h (fun u => score_candidate u []) id top, fl.2)

/-- The candidate harvesting loop of `find_from_homepage` (main script,
lines 213-225): per anchor, skip empty hrefs, join against `root + "/"`
(a raised join error aborts the whole harvest, modelled by `none`), keep
same-site links whose text has a positive hint or whose URL looks jobish. -/
def harvest (h : Http) (root : Str) : List (Str × Str) → Option (List (Str × Str))
  | [] => some []
  | tp :: rest =>
    let text := tp.1
    let href := trim tp.2
    if href.isEmpty then harvest h root rest
    else
      match h.ujoin (root ++ str "/") href with
      | none => none
      | some absu =>
        (harvest h root rest).map (fun tl =>
          if !same_site root absu then tl
          else if anyHas GOOD_TEXT_HINTS (lower text) || looks_jobish absu
          then (absu, text) :: tl else tl)

/-- The `find_from_homepage` (main script, lines 207-245): harvest the homepage
anchors, deduplicate (url, text) pairs, score-sort descending, validate the
top 8 and return the best; any raised error yields the empty string. -/
def find_from_homepage (h : Http) (root : Str) : Str :=
  match h.anchors root with
  | none => []
  | some ancs =>
    match harvest h root ancs with
    | none => []
    | some candidates =>
      let candidates := dedupFirst candidates
      if candidates.isEmpty then []
      else
        let top := (sortDesc (fun p => score_candidate p.1 p.2) candidates).take 8
        selectBest h (fun p => score_candidate p.1 p.2) (fun p => p.1) top

/-- The loop of `try_common_paths` (main script, lines 249-258) over a list
of path suffixes. -/
def tcpLoop (h : Http) (root : Str) : List Str → Str
  | [] => []
  | path :: rest =>
    match safe_head h (root ++ path) with
    | none => tcpLoop h root rest
    | some found =>
      if found.isEmpty then tcpLoop h root rest
      else if (validate_jobs_page h found).2 ≠ str "unlikely_jobs" then found
      else tcpLoop h root rest

/-- The `try_common_paths` (main script, lines 248-259): first common path that
HEAD-resolves and does not validate as `unlikely_jobs`. -/
def try_common_paths (h : Http) (root : Str) : Str := tcpLoop h root COMMON_PATHS

/-- The result dictionary of `find_jobs_page`. -/
structure Result where
  vacancies : Str
  confidence : Int
  type : Str
  sitemap : Str
deriving DecidableEq

/-- The `find_jobs_page` (main script, lines 262-282): normalize the root (a
`urlparse` error propagates, modelled by `none`), short-circuit through the
sitemap, homepage and common-path tiers, re-validating the winning URL;
`sitemap_used` from the sitemap stage is carried into every later tier's
result. -/
def find_jobs_page (h : Http) (org_url : Str) : Option Result :=
  match norm_root org_url with
  | none => none
  | some root =>
    if root.isEmpty then some ⟨[], 0, str "no_url", []⟩
    else
      let sm := find_from_sitemap h root
      if !sm.1.isEmpty then
        some ⟨sm.1, (validate_jobs_page h sm.1).1, (validate_jobs_page h sm.1).2, sm.2⟩
      else
        let hu := find_from_homepage h root
        if !hu.isEmpty then
          some ⟨hu, (validate_jobs_page h hu).1, (validate_jobs_page h hu).2, sm.2⟩
        else
          let cu := try_common_paths h root
          if !cu.isEmpty then
            some ⟨cu, (validate_jobs_page h cu).1, (validate_jobs_page h cu).2, sm.2⟩
          else some ⟨[], 0, str "not_found", sm.2⟩

/-- A pandas cell as the scripts read/write it: a string, NaN (missing
value), or an int (the confidence written by `main`). -/
inductive Cell where
  | cstr (v : Str)
  | cnan
  | cint (n : Int)
deriving DecidableEq

/-- A pandas DataFrame as the script uses it: the column list plus one cell
valuation per row (the valuation is only meaningful on present columns). -/
structure DF where
  cols : List Str
  rows : List (Str → Cell)

/-- The `df.at[i, c]` read access: `none` models the KeyError/row error pandas
raises when the column or row is absent. -/
def DF.at? (d : DF) (i : Nat) (c : Str) : Option Cell :=
  if c ∈ d.cols then (d.rows.get? i).map (fun r => r c) else none

/-- The `df.at[i, c] = v` on an existing row (the script only assigns to
in-range rows and, after `ensure_cols`, existing columns). -/
def DF.setC (d : DF) (i : Nat) (c : Str) (v : Cell) : DF :=
  ⟨d.cols,
   match d.rows.get? i with
   | none => d.rows
   | some r => d.rows.set i (fun c2 => if c2 = c then v else r c2)⟩

/-- The `df[c] = ""` when the column is absent: add the column with the empty
string in every row. -/
def addCol (c : Str) (d : DF) : DF :=
  if c ∈ d.cols then d
  else ⟨d.cols ++ [c],
        d.rows.map (fun r => fun c2 => if c2 = c then Cell.cstr [] else r c2)⟩

/-- The `ensure_cols` (main script, lines 285-294): make sure `Vacancies` and
the three extra columns exist, defaulting to the empty string. -/
def ensure_cols (d : DF) : DF :=
  addCol (str "Vacancies_Sitemap")
    (addCol (str "Vacancies_Type")
      (addCol (str "Vacancies_Confidence")
        (addCol (str "Vacancies") d)))

/-- The output column names filled by a run. -/
def OUT_COLS : List Str :=
  [str "Vacancies", str "Vacancies_Confidence", str "Vacancies_Type",
   str "Vacancies_Sitemap"]

/-- Python truthiness plus `str(...)` of `df.at[i, "URL"] or ""` (main
script, line 347): strings pass through (`"" or ""` is `""`), NaN is truthy
and stringifies to `"nan"`, a zero int is falsy. -/
def cellUrlStr : Cell → Str
  | .cstr v => v
  | .cnan => str "nan"
  | .cint n => if n = 0 then [] else (toString n).data

/-- The skip test of `main` (line 343): `isinstance(existing, str) and
existing.strip()`. -/
def resolvedCell : Cell → Bool
  | .cstr v => !(trim v).isEmpty
  | _ => false

/-- One iteration of `main`'s row loop (lines 341-357): skip resolved rows,
otherwise discover and, when a URL was found, write the four columns.
`none` models an uncaught exception (missing column or a `norm_root`
error), which would abort the run. -/
def processRow (h : Http) (d : DF) (i : Nat) : Option DF :=
  match d.at? i (str "Vacancies") with
  | none => none
  | some existing =>
    if resolvedCell existing then some d
    else
      match d.at? i (str "URL") with
      | none => none
      | some uc =>
        match find_jobs_page h (trim (cellUrlStr uc)) with
        | none => none
        | some res =>
          if res.vacancies.isEmpty then some d
          else
            some ((((d.setC i (str "Vacancies") (Cell.cstr res.vacancies)).setC
                      i (str "Vacancies_Confidence") (Cell.cint res.confidence)).setC
                      i (str "Vacancies_Type") (Cell.cstr res.type)).setC
                      i (str "Vacancies_Sitemap") (Cell.cstr res.sitemap))

/-- The `main`'s loop over the selected row indices. -/
def runRows (h : Http) : DF → List Nat → Option DF
  | d, [] => some d
  | d, i :: rest =>
    match processRow h d i with
    | none => none
    | some d2 => runRows h d2 rest

/-- The run size of `main` (lines 326-329): all rows when `MAX_ROWS <= 0`,
else `min(MAX_ROWS, n)`. -/
def runLen (maxRows : Int) (n : Nat) : Nat :=
  if maxRows ≤ 0 then n else min maxRows.toNat n

/-- The wrap-around index slice of `main` (lines 331-334):
`range(start, min(n, start+run_len))` plus, when `start+run_len > n`,
`range(0, start+run_len-n)`. -/
def runIndices (start rl n : Nat) : List Nat :=
  List.range' start (min n (start + rl) - start) ++
    (if n < start + rl then List.range' 0 (start + rl - n) else [])

/-- The `main` (lines 313-375), restricted to its effect on the table: read,
`ensure_cols`, return unchanged when empty, else process the wrap-around
slice starting at `next_start_row % n`.  Checkpoint writing, logging and
sleeping do not touch the table and are omitted. -/
def mainRun (h : Http) (maxRows : Int) (nextStart : Nat) (d0 : DF) : Option DF :=
  let d := ensure_cols d0
  let n := d.rows.length
  if n = 0 then some d
  else runRows h d (runIndices (nextStart % n) (runLen maxRows n) n)

/-- The scoring formula exactly as the specification claim words it: +12 /
+10 per positive hint in url / text, +6 for `opportun`, minus 40 per
negative hint match in url plus another 40 when it also matches the text
(so a hint present in both costs 80), plus the path-depth bonus. -/
def score_candidate_claimed (url anchor_text : Str) : Int :=
  let lu := lower url
  let lt := lower anchor_text
  (SCORE_GOOD.map (fun g => if hasSub g lu then (12 : Int) else 0)).sum
  + (SCORE_GOOD.map (fun g => if hasSub g lt then (10 : Int) else 0)).sum
  + (if hasSub (str "opportun") lu || hasSub (str "opportun") lt then 6 else 0)
  - (BAD_URL_HINTS.map (fun b =>
      (if hasSub b lu then (40 : Int) else 0) +
      (if hasSub b lt then (40 : Int) else 0))).sum
  + max 0 (10 - (List.count '/' lu : Int))

/-- The scoring formula as amended: identical to the claim except that a
negative hint is charged 40 once per hint string, whether it appears in the
url, the text, or both. -/
def score_candidate_amended (url anchor_text : Str) : Int :=
  let lu := lower url
  let lt := lower anchor_text
  (SCORE_GOOD.map (fun g => if hasSub g lu then (12 : Int) else 0)).sum
  + (SCORE_GOOD.map (fun g => if hasSub g lt then (10 : Int) else 0)).sum
  + (if hasSub (str "opportun") lu || hasSub (str "opportun") lt then 6 else 0)
  - (BAD_URL_HINTS.map (fun b =>
      if hasSub b lu || hasSub b lt then (40 : Int) else 0)).sum
  + max 0 (10 - (List.count '/' lu : Int))

/-- The `norm_root` exactly as the specification claim words it: total (never
raises; a parse error yields the empty string) and stripping only a leading
`www.` from the host. -/
def norm_root_claimed (url : Str) : Str :=
  let t := trim url
  if t.isEmpty then []
  else
    match urlparse (applyScheme t) with
    | none => []
    | some p =>
      p.scheme ++ str "://" ++
        (if leadsWith (str "www.") p.netloc then p.netloc.drop 4 else p.netloc)

/-- A common path qualifies when its HEAD probe resolves (status < 400,
nonempty resolved URL) and the resolved URL does not validate as
`unlikely_jobs` — the acceptance test of the specification claim. -/
def qualifies (h : Http) (root p : Str) : Bool :=
  match safe_head h (root ++ p) with
  | none => false
  | some u =>
    if u.isEmpty then false
    else if (validate_jobs_page h u).2 = str "unlikely_jobs" then false
    else true

/-- The HEAD-resolved URL of a candidate (empty when the probe fails). -/
def headResolved (h : Http) (cand : Str) : Str := (safe_head h cand).getD []

/-- A sitemap URL yields when its fetch succeeds and extracts at least one
`<loc>` URL. -/
def yieldsLocs (h : Http) (sm : Str) : Bool :=
  match h.get sm with
  | none => false
  | some xml => !(extractLocs xml).isEmpty

/-- The oracle with no reachable network at all. -/
def httpNone : Http :=
  ⟨fun _ => none, fun _ => none, fun _ => none, fun _ _ => none, fun _ => none⟩

/-- An oracle for the sitemap-provenance counterexample: robots is
unreachable and both well-known sitemaps fetch successfully, each yielding
one `<loc>` URL. -/
def httpTwoMaps : Http where
  get := fun u =>
    if u = str "https://e.x/sitemap.xml" then
      some (str "<loc>https://e.x/a</loc>")
    else if u = str "https://e.x/sitemap_index.xml" then
      some (str "<loc>https://e.x/b</loc>")
    else none
  head := fun _ => none
  page := fun _ => none
  ujoin := fun _ _ => none
  anchors := fun _ => none

/-- An oracle whose every page reads as a clear jobs page (title "Careers",
body with "apply now", "salary" and "vacancies"). -/
def httpJobs : Http where
  get := fun _ => none
  head := fun _ => none
  page := fun _ => some (str "Careers", str "Apply now - salary and current vacancies")
  ujoin := fun _ _ => none
  anchors := fun _ => none

/-- Folding the +f/+g accumulation equals the sum of the two mapped lists. -/
theorem foldl_add2 (l : List α) (f g : α → Int) :
    ∀ init : Int,
      l.foldl (fun acc x => (acc + f x) + g x) init
        = init + (l.map f).sum + (l.map g).sum := by
  induction l with
  | nil => intro init; simp
  | cons a l ih =>
    intro init
    simp only [List.foldl_cons, List.map_cons, List.sum_cons, ih]
    ring

/-- Folding the conditional subtraction equals subtracting the mapped sum. -/
theorem foldl_subIte (l : List α) (p : α → Bool) :
    ∀ init : Int,
      l.foldl (fun acc x => if p x then acc - 40 else acc) init
        = init - (l.map (fun x => if p x then (40 : Int) else 0)).sum := by
  induction l with
  | nil => intro init; simp
  | cons a l ih =>
    intro init
    by_cases h : p a <;>
      simp only [List.foldl_cons, List.map_cons, List.sum_cons, h, if_true,
        if_false, ih, Bool.false_eq_true] <;>
      ring

/-- C1 (counterexample): the claim prices a negative hint present in both
url and anchor text at 80; the code charges 40 once per hint.  At
url = text = "shop" the code scores -40 + 10 = -30 while the claimed
formula gives -80 + 10 = -70. -/
theorem score_candidate_counterexample :
    score_candidate (str "shop") (str "shop") = -30 ∧
    score_candidate_claimed (str "shop") (str "shop") = -70 ∧
    score_candidate (str "shop") (str "shop")
      ≠ score_candidate_claimed (str "shop") (str "shop") := by
  refine ⟨by decide, by decide, by decide⟩

/-- C1 (amended): `score_candidate` computes exactly the claimed additive
formula, except that each negative URL-hint string costs 40 once when it
matches the url or the text (also when it matches both), not 80. -/
theorem score_candidate_eq_amended (url anchor_text : Str) :
    score_candidate url anchor_text = score_candidate_amended url anchor_text := by
  simp only [score_candidate, score_candidate_amended, foldl_add2, foldl_subIte]
  by_cases ho : (hasSub (str "opportun") (lower url)
      || hasSub (str "opportun") (lower anchor_text)) = true
  · rw [if_pos ho, if_pos ho]; ring
  · rw [if_neg ho, if_neg ho]; ring

/-- The confidence values `rawConf` can produce before clamping. -/
theorem rawConf_mem (t b : Str) :
    rawConf t b ∈ ([-5, 15, 20, 30, 40, 45, 50, 55, 65, 75, 80, 100] : List Int) := by
  unfold rawConf
  by_cases h1 : anyHas [str "vacanc", str "career", str "jobs", str "recruit"] t = true <;>
  by_cases h2 : anyHas [str "apply now", str "closing date", str "salary",
      str "job description", str "specification"] b = true <;>
  by_cases h3 : anyHas [str "current vacancies", str "vacancies",
      str "our vacancies", str "latest vacancies"] b = true <;>
  by_cases h4 : anyHas BAD_TEXT_HINTS b = true <;>
    simp only [h1, h2, h3, h4, if_true, if_false] <;> decide

/-- The clamped confidence values `validate_jobs_page` can produce on a
fetched page. -/
theorem clamp_rawConf_mem (t b : Str) :
    clamp01 (rawConf t b)
      ∈ ([0, 15, 20, 30, 40, 45, 50, 55, 65, 75, 80, 100] : List Int) := by
  have h := rawConf_mem t b
  simp only [List.mem_cons, List.not_mem_nil, or_false] at h ⊢
  rcases h with h | h | h | h | h | h | h | h | h | h | h | h <;> rw [h] <;> decide

/-- The clamped confidence is nonnegative. -/
theorem clamp01_nonneg (x : Int) : 0 ≤ clamp01 x := le_max_left 0 _

/-- The clamped confidence is at most 100. -/
theorem clamp01_le (x : Int) : clamp01 x ≤ 100 :=
  max_le (by norm_num) (min_le_left _ _)

/-- Reachable confidences that are at least 70 are exactly 75, 80 or 100. -/
theorem allowed_ge70 (c : Int)
    (h1 : c ∈ ([0, 15, 20, 30, 40, 45, 50, 55, 65, 75, 80, 100] : List Int))
    (h2 : 70 ≤ c) : c ∈ ([75, 80, 100] : List Int) := by
  simp only [List.mem_cons, List.not_mem_nil, or_false] at h1 ⊢
  omega

/-- C9: the confidence returned by `validate_jobs_page` always lies in the
finite set {0, 15, 20, 30, 40, 45, 50, 55, 65, 75, 80, 100}, and the label
`jobs_page` is only ever emitted with confidence 75, 80 or 100. -/
theorem validate_confidence_values (h : Http) (url : Str) :
    (validate_jobs_page h url).1
        ∈ ([0, 15, 20, 30, 40, 45, 50, 55, 65, 75, 80, 100] : List Int) ∧
    ((validate_jobs_page h url).2 = str "jobs_page" →
      (validate_jobs_page h url).1 ∈ ([75, 80, 100] : List Int)) := by
  cases hp : h.page url with
  | none =>
    simp only [validate_jobs_page, hp]
    exact ⟨by decide, fun he => absurd he (by decide)⟩
  | some tb =>
    simp only [validate_jobs_page, hp]
    have hmem := clamp_rawConf_mem (lower tb.1) (lower tb.2)
    split_ifs with h70 h45
    · exact ⟨hmem, fun _ => allowed_ge70 _ hmem h70⟩
    · exact ⟨hmem, fun he =>
        absurd (show str "maybe_jobs" = str "jobs_page" from he) (by decide)⟩
    · exact ⟨hmem, fun he =>
        absurd (show str "unlikely_jobs" = str "jobs_page" from he) (by decide)⟩

/-- C9 (witness): on an oracle whose page reads as a clear jobs page, the
theorem pins the confidence into {75, 80, 100}. -/
theorem validate_confidence_values_witness :
    (validate_jobs_page httpJobs (str "u")).1 ∈ ([75, 80, 100] : List Int) :=
  (validate_confidence_values httpJobs (str "u")).2 (by decide)

/-- C3: `validate_jobs_page` always returns a confidence in [0, 100]; a
fetch failure returns exactly `(0, "unreachable")`; on a fetched page the
label is determined exactly by the thresholds 70 and 45. -/
theorem validate_jobs_page_thresholds (h : Http) (url : Str) :
    0 ≤ (validate_jobs_page h url).1 ∧ (validate_jobs_page h url).1 ≤ 100 ∧
    (h.page url = none → validate_jobs_page h url = (0, str "unreachable")) ∧
    (h.page url ≠ none →
      ((validate_jobs_page h url).2 = str "jobs_page" ↔
          70 ≤ (validate_jobs_page h url).1) ∧
      ((validate_jobs_page h url).2 = str "maybe_jobs" ↔
          45 ≤ (validate_jobs_page h url).1 ∧ (validate_jobs_page h url).1 < 70) ∧
      ((validate_jobs_page h url).2 = str "unlikely_jobs" ↔
          (validate_jobs_page h url).1 < 45)) := by
  cases hp : h.page url with
  | none =>
    have hv : validate_jobs_page h url = (0, str "unreachable") := by
      simp [validate_jobs_page, hp]
    rw [hv]
    exact ⟨by decide, by decide, fun _ => rfl, fun hne => absurd rfl hne⟩
  | some tb =>
    simp only [validate_jobs_page, hp]
    have hn := clamp01_nonneg (rawConf (lower tb.1) (lower tb.2))
    have hl := clamp01_le (rawConf (lower tb.1) (lower tb.2))
    split_ifs with h70 h45
    · refine ⟨hn, hl, fun hf => hf.elim, fun _ => ?_⟩
      refine ⟨⟨fun _ => h70, fun _ => rfl⟩,
        ⟨fun he =>
          absurd (show str "jobs_page" = str "maybe_jobs" from he) (by decide),
          fun hc => absurd hc.2 (by omega)⟩,
        fun he =>
          absurd (show str "jobs_page" = str "unlikely_jobs" from he) (by decide),
        fun hc => absurd h70 (by omega)⟩
    · refine ⟨hn, hl, fun hf => hf.elim, fun _ => ?_⟩
      refine ⟨⟨fun he =>
          absurd (show str "maybe_jobs" = str "jobs_page" from he) (by decide),
          fun hge => absurd hge h70⟩,
        ⟨fun _ => ⟨h45, by omega⟩, fun _ => rfl⟩,
        fun he =>
          absurd (show str "maybe_jobs" = str "unlikely_jobs" from he) (by decide),
        fun hc => absurd h45 (by omega)⟩
    · refine ⟨hn, hl, fun hf => hf.elim, fun _ => ?_⟩
      refine ⟨⟨fun he =>
          absurd (show str "unlikely_jobs" = str "jobs_page" from he) (by decide),
          fun hge => absurd hge h70⟩,
        ⟨fun he =>
          absurd (show str "unlikely_jobs" = str "maybe_jobs" from he) (by decide),
          fun hc => absurd hc.1 h45⟩,
        fun _ => by omega, fun _ => rfl⟩

/-- C3 (witness): applying the threshold theorem to the unreachable-network
oracle yields exactly `(0, "unreachable")`. -/
theorem validate_jobs_page_thresholds_witness :
    validate_jobs_page httpNone (str "u") = (0, str "unreachable") :=
  (validate_jobs_page_thresholds httpNone (str "u")).2.2.1 (by decide)

/-- C10: in a run over a table of `n >= 1` rows the processed index list
has no duplicates: the run length is capped at `n`, so the wrap-around
slice visits each row at most once. -/
theorem runIndices_nodup (maxRows : Int) (stateStart n : Nat) (hn : 1 ≤ n) :
    runLen maxRows n ≤ n ∧
    (runIndices (stateStart % n) (runLen maxRows n) n).Nodup := by
  have hrl : runLen maxRows n ≤ n := by
    unfold runLen
    split
    · exact Nat.le_refl n
    · exact Nat.min_le_right _ _
  refine ⟨hrl, ?_⟩
  have hstart : stateStart % n < n := Nat.mod_lt _ hn
  unfold runIndices
  apply List.Nodup.append
  · exact List.nodup_range' _ _
  · split
    · exact List.nodup_range' _ _
    · exact List.nodup_nil
  · intro x hx1 hx2
    rw [List.mem_range'_1] at hx1
    split at hx2
    · rw [List.mem_range'_1] at hx2
      omega
    · cases hx2

/-- C10 (witness): a concrete wrap-around run (n = 3, MAX_ROWS = 2, state
start 5) has distinct indices. -/
theorem runIndices_nodup_witness :
    runLen 2 3 ≤ 3 ∧ (runIndices (5 % 3) (runLen 2 3) 3).Nodup :=
  runIndices_nodup 2 5 3 (by decide)

/-- The common-path loop returns the first qualifying path's HEAD-resolved
URL, or the empty string. -/
theorem tcpLoop_eq_find (h : Http) (root : Str) :
    ∀ l : List Str,
      tcpLoop h root l
        = ((l.find? (fun p => qualifies h root p)).map
            (fun p => headResolved h (root ++ p))).getD [] := by
  intro l
  induction l with
  | nil => rfl
  | cons p rest ih =>
    cases hsh : safe_head h (root ++ p) with
    | none =>
      have hq : qualifies h root p = false := by simp [qualifies, hsh]
      rw [List.find?_cons_of_neg _ (by simp [hq])]
      simp only [tcpLoop, hsh]
      exact ih
    | some u =>
      by_cases hu : u.isEmpty = true
      · have hq : qualifies h root p = false := by simp [qualifies, hsh, hu]
        rw [List.find?_cons_of_neg _ (by simp [hq])]
        simp only [tcpLoop, hsh, hu, if_true]
        exact ih
      · by_cases hv : (validate_jobs_page h u).2 = str "unlikely_jobs"
        · have hq : qualifies h root p = false := by simp [qualifies, hsh, hu, hv]
          rw [List.find?_cons_of_neg _ (by simp [hq])]
          simp only [tcpLoop, hsh, hu, hv, if_false, ne_eq, not_true_eq_false,
            if_true]
          exact ih
        · have hq : qualifies h root p = true := by simp [qualifies, hsh, hu, hv]
          rw [List.find?_cons_of_pos _ (by simp [hq])]
          simp only [tcpLoop, hsh, hu, hv, if_false, ne_eq, not_false_eq_true,
            if_true, Option.map_some, Option.getD_some]
          simp [headResolved, hsh]

/-- C7: `try_common_paths` iterates `COMMON_PATHS` in declared order and
returns the HEAD-resolved URL of the first path that probes as existing and
does not validate as `unlikely_jobs`; unreachable, raising or
`unlikely_jobs` paths are skipped, and without a qualifying path the result
is the empty string. -/
theorem try_common_paths_first_match (h : Http) (root : Str) :
    try_common_paths h root
      = ((COMMON_PATHS.find? (fun p => qualifies h root p)).map
          (fun p => headResolved h (root ++ p))).getD [] :=
  tcpLoop_eq_find h root COMMON_PATHS

/-- Dropping the head of a cons under `getLast?.getD` moves the head into
the default. -/
theorem getLast?_cons_getD (a : α) (l : List α) (d : α) :
    ((a :: l).getLast?).getD d = (l.getLast?).getD a := by
  cases l with
  | nil => rfl
  | cons b t =>
    rw [List.getLast?_cons_cons]
    obtain ⟨x, hx⟩ := Option.isSome_iff_exists.mp
      (List.getLast?_isSome.mpr (List.cons_ne_nil b t))
    rw [hx]
    rfl

/-- The `sitemap_used` component of the fetch loop is the last sitemap in
the list that fetched successfully and yielded `<loc>` URLs (or the
incoming state when none does). -/
theorem fetchLoopGo_used (h : Http) :
    ∀ (sms : List Str) (acc : List Str) (used : Str),
      (fetchLoopGo h acc used sms).2
        = (((sms.filter (fun sm => yieldsLocs h sm)).getLast?).getD used) := by
  intro sms
  induction sms with
  | nil => intro acc used; rfl
  | cons sm rest ih =>
    intro acc used
    rw [List.filter_cons]
    cases hg : h.get sm with
    | none =>
      have hy : yieldsLocs h sm = false := by simp [yieldsLocs, hg]
      simp only [fetchLoopGo, hg, hy, Bool.false_eq_true, if_false]
      exact ih acc used
    | some xml =>
      by_cases he : (extractLocs xml).isEmpty = true
      · have hy : yieldsLocs h sm = false := by simp [yieldsLocs, hg, he]
        simp only [fetchLoopGo, hg, he, hy, Bool.false_eq_true, if_false,
          if_true]
        exact ih acc used
      · have hy : yieldsLocs h sm = true := by simp [yieldsLocs, hg, he]
        simp only [fetchLoopGo, hg, he, hy, Bool.false_eq_true, if_false,
          if_true]
        rw [ih (acc ++ extractLocs xml) sm, getLast?_cons_getD]

/-- C4 (amended): `sitemap_used` as returned by `find_from_sitemap` is the
last sitemap URL, in fetch order, that yielded extracted URLs (empty when
none did). -/
theorem sitemap_used_last (h : Http) (root : Str) :
    (find_from_sitemap h root).2
      = ((((sitemapsOf h root).filter
            (fun sm => yieldsLocs h sm)).getLast?).getD []) := by
  have hfl : (fetchLoop h (sitemapsOf h root)).2
      = ((((sitemapsOf h root).filter
            (fun sm => yieldsLocs h sm)).getLast?).getD []) :=
    fetchLoopGo_used h (sitemapsOf h root) [] []
  simp only [find_from_sitemap]
  split <;> exact hfl

/-- C4 (counterexample): with robots unreachable and both well-known
sitemaps yielding a URL, `sitemap_used` is the second sitemap in fetch
order — the last yielder, not the first. -/
theorem sitemap_used_counterexample :
    sitemapsOf httpTwoMaps (str "https://e.x")
        = [str "https://e.x/sitemap.xml", str "https://e.x/sitemap_index.xml"] ∧
    yieldsLocs httpTwoMaps (str "https://e.x/sitemap.xml") = true ∧
    yieldsLocs httpTwoMaps (str "https://e.x/sitemap_index.xml") = true ∧
    (find_from_sitemap httpTwoMaps (str "https://e.x")).2
        = str "https://e.x/sitemap_index.xml" ∧
    str "https://e.x/sitemap_index.xml" ≠ str "https://e.x/sitemap.xml" :=
  ⟨by decide, by decide, by decide, by decide, by decide⟩

/-- C2: `find_jobs_page` returns the fixed `no_url` result — independently
of the network — when normalization yields an empty root; otherwise it
short-circuits through the sitemap, homepage and common-path tiers in that
order, and the homepage tier, the common-path tier and the final
`not_found` result all carry the `sitemap_used` value produced by the
sitemap stage. -/
theorem find_jobs_page_tiers (h : Http) (org : Str) :
    (norm_root org = some [] →
      find_jobs_page h org = some ⟨[], 0, str "no_url", []⟩ ∧
      ∀ h2 : Http, find_jobs_page h2 org = find_jobs_page h org) ∧
    (∀ root : Str, norm_root org = some root → root ≠ [] →
      ((find_from_sitemap h root).1 ≠ [] →
        find_jobs_page h org = some ⟨(find_from_sitemap h root).1,
          (validate_jobs_page h (find_from_sitemap h root).1).1,
          (validate_jobs_page h (find_from_sitemap h root).1).2,
          (find_from_sitemap h root).2⟩) ∧
      ((find_from_sitemap h root).1 = [] → find_from_homepage h root ≠ [] →
        find_jobs_page h org = some ⟨find_from_homepage h root,
          (validate_jobs_page h (find_from_homepage h root)).1,
          (validate_jobs_page h (find_from_homepage h root)).2,
          (find_from_sitemap h root).2⟩) ∧
      ((find_from_sitemap h root).1 = [] → find_from_homepage h root = [] →
        try_common_paths h root ≠ [] →
        find_jobs_page h org = some ⟨try_common_paths h root,
          (validate_jobs_page h (try_common_paths h root)).1,
          (validate_jobs_page h (try_common_paths h root)).2,
          (find_from_sitemap h root).2⟩) ∧
      ((find_from_sitemap h root).1 = [] → find_from_homepage h root = [] →
        try_common_paths h root = [] →
        find_jobs_page h org
          = some ⟨[], 0, str "not_found", (find_from_sitemap h root).2⟩)) := by
  constructor
  · intro hn
    constructor
    · simp [find_jobs_page, hn]
    · intro h2
      simp [find_jobs_page, hn]
  · intro root hn hroot
    have hne : root.isEmpty = false := by simp [hroot]
    refine ⟨?_, ?_, ?_, ?_⟩
    · intro hs
      simp only [find_jobs_page, hn, hne, Bool.false_eq_true, if_false,
        List.isEmpty_eq_false.mpr hs, Bool.not_false, if_true]
    · intro hs hh
      simp only [find_jobs_page, hn, hne, Bool.false_eq_true, if_false, hs,
        List.isEmpty_nil, Bool.not_true, List.isEmpty_eq_false.mpr hh,
        Bool.not_false, if_true]
    · intro hs hh hc
      simp only [find_jobs_page, hn, hne, Bool.false_eq_true, if_false, hs, hh,
        List.isEmpty_nil, Bool.not_true, List.isEmpty_eq_false.mpr hc,
        Bool.not_false, if_true]
    · intro hs hh hc
      simp only [find_jobs_page, hn, hne, Bool.false_eq_true, if_false, hs, hh,
        hc, List.isEmpty_nil, Bool.not_true, if_false]

/-- C2 (witness): on the empty organization URL, normalization yields the
empty root and the orchestrator returns the fixed `no_url` result. -/
theorem find_jobs_page_tiers_witness :
    find_jobs_page httpNone (str "") = some ⟨[], 0, str "no_url", []⟩ :=
  ((find_jobs_page_tiers httpNone (str "")).1 (by decide)).1

/-- The `addCol` preserves the row count. -/
theorem addCol_length (c : Str) (d : DF) :
    (addCol c d).rows.length = d.rows.length := by
  unfold addCol
  split
  · rfl
  · simp

/-- The `addCol` keeps every existing column. -/
theorem addCol_mem_cols (c c2 : Str) (d : DF) (hm : c2 ∈ d.cols) :
    c2 ∈ (addCol c d).cols := by
  unfold addCol
  split
  · exact hm
  · simp [hm]

/-- The `addCol` makes its column present. -/
theorem addCol_mem_self (c : Str) (d : DF) : c ∈ (addCol c d).cols := by
  unfold addCol
  split
  · next hc => exact hc
  · simp

/-- Reading any other column is unchanged by `addCol`. -/
theorem addCol_at_other (c c2 : Str) (d : DF) (i : Nat) (hne : c2 ≠ c) :
    (addCol c d).at? i c2 = d.at? i c2 := by
  unfold addCol
  split
  · rfl
  · unfold DF.at?
    have hiff : (c2 ∈ d.cols ++ [c]) ↔ c2 ∈ d.cols := by
      simp [List.mem_append, hne]
    by_cases hm : c2 ∈ d.cols
    · rw [if_pos (hiff.mpr hm), if_pos hm]
      simp only [List.get?_map]
      cases hg : d.rows.get? i <;> simp [hne]
    · rw [if_neg (fun hx => hm (hiff.mp hx)), if_neg hm]

/-- The row option of an in-range index is some. -/
theorem rows_get?_isSome (d : DF) (i : Nat) (hi : i < d.rows.length) :
    (d.rows.get? i).isSome := by
  rw [Option.isSome_iff_ne_none]
  intro hnone
  rw [List.get?_eq_none] at hnone
  omega

/-- Reading the freshly added column gives the empty-string default. -/
theorem addCol_at_new (c : Str) (d : DF) (i : Nat) (hc : c ∉ d.cols)
    (hi : i < d.rows.length) : (addCol c d).at? i c = some (Cell.cstr []) := by
  unfold addCol
  rw [if_neg hc]
  unfold DF.at?
  rw [if_pos (by simp)]
  simp only [List.get?_map]
  obtain ⟨a, ha⟩ := Option.isSome_iff_exists.mp (rows_get?_isSome d i hi)
  rw [ha]
  simp

/-- The `DF.setC` does not change the columns. -/
theorem setC_cols (d : DF) (i : Nat) (c : Str) (v : Cell) :
    (d.setC i c v).cols = d.cols := rfl

/-- The `DF.setC` does not change the row count. -/
theorem setC_length (d : DF) (i : Nat) (c : Str) (v : Cell) :
    (d.setC i c v).rows.length = d.rows.length := by
  unfold DF.setC
  cases d.rows.get? i <;> simp

/-- A successful `processRow` changes neither the columns nor the row
count. -/
theorem processRow_shape (h : Http) (d : DF) (i : Nat) (d2 : DF)
    (hp : processRow h d i = some d2) :
    d2.cols = d.cols ∧ d2.rows.length = d.rows.length := by
  cases hv : d.at? i (str "Vacancies") with
  | none => simp [processRow, hv] at hp
  | some existing =>
    by_cases hres : resolvedCell existing = true
    · simp only [processRow, hv, hres, if_true] at hp
      cases hp
      exact ⟨rfl, rfl⟩
    · simp only [processRow, hv, hres, Bool.false_eq_true, if_false] at hp
      cases hu : d.at? i (str "URL") with
      | none =>
        simp only [hu] at hp
        exact Option.noConfusion hp
      | some uc =>
        simp only [hu] at hp
        cases hf : find_jobs_page h (trim (cellUrlStr uc)) with
        | none =>
          simp only [hf] at hp
          exact Option.noConfusion hp
        | some res =>
          simp only [hf] at hp
          split at hp
          · cases hp
            exact ⟨rfl, rfl⟩
          · cases hp
            refine ⟨rfl, ?_⟩
            rw [setC_length, setC_length, setC_length, setC_length]

/-- A successful `runRows` changes neither the columns nor the row count. -/
theorem runRows_shape (h : Http) :
    ∀ (l : List Nat) (d d2 : DF), runRows h d l = some d2 →
      d2.cols = d.cols ∧ d2.rows.length = d.rows.length := by
  intro l
  induction l with
  | nil => intro d d2 hr; cases hr; exact ⟨rfl, rfl⟩
  | cons i rest ih =>
    intro d d2 hr
    unfold runRows at hr
    cases hp : processRow h d i with
    | none => rw [hp] at hr; cases hr
    | some d1 =>
      rw [hp] at hr
      have h1 := processRow_shape h d i d1 hp
      have h2 := ih d1 d2 hr
      exact ⟨h2.1.trans h1.1, h2.2.trans h1.2⟩

/-- The `ensure_cols` creates the four output columns and keeps the row count. -/
theorem ensure_cols_shape (d : DF) :
    (∀ c ∈ OUT_COLS, c ∈ (ensure_cols d).cols) ∧
    (ensure_cols d).rows.length = d.rows.length := by
  constructor
  · intro c hc
    simp only [OUT_COLS, List.mem_cons, List.not_mem_nil, or_false] at hc
    rcases hc with hc | hc | hc | hc <;> subst hc <;> unfold ensure_cols
    · exact addCol_mem_cols _ _ _ (addCol_mem_cols _ _ _
        (addCol_mem_cols _ _ _ (addCol_mem_self _ _)))
    · exact addCol_mem_cols _ _ _ (addCol_mem_cols _ _ _ (addCol_mem_self _ _))
    · exact addCol_mem_cols _ _ _ (addCol_mem_self _ _)
    · exact addCol_mem_self _ _
  · unfold ensure_cols
    simp only [addCol_length]

/-- A present column at an in-range row always reads a cell. -/
theorem at?_isSome_of_mem (d : DF) (i : Nat) (c : Str) (hc : c ∈ d.cols)
    (hi : i < d.rows.length) : (d.at? i c).isSome := by
  unfold DF.at?
  rw [if_pos hc]
  obtain ⟨a, ha⟩ := Option.isSome_iff_exists.mp (rows_get?_isSome d i hi)
  rw [ha]
  rfl

/-- C5: after a successful run every row of the output table carries all
four output columns (`ensure_cols` creates any absent one with the
empty-string default for every row, and processing preserves the shape), so
rows whose discovery ended in `not_found` or `no_url` included. -/
theorem mainRun_columns (h : Http) (mr : Int) (st : Nat) (d0 d' : DF)
    (hrun : mainRun h mr st d0 = some d') :
    (∀ c ∈ OUT_COLS, c ∈ d'.cols) ∧
    d'.rows.length = d0.rows.length ∧
    (∀ i, i < d'.rows.length → ∀ c ∈ OUT_COLS, (d'.at? i c).isSome) ∧
    (∀ c ∈ OUT_COLS, c ∉ d0.cols → ∀ i, i < d0.rows.length →
      (ensure_cols d0).at? i c = some (Cell.cstr [])) := by
  have hshape : d'.cols = (ensure_cols d0).cols ∧
      d'.rows.length = (ensure_cols d0).rows.length := by
    simp only [mainRun] at hrun
    split at hrun
    · cases hrun; exact ⟨rfl, rfl⟩
    · exact runRows_shape h _ _ _ hrun
  have hcols : ∀ c ∈ OUT_COLS, c ∈ d'.cols := by
    intro c hc
    rw [hshape.1]
    exact (ensure_cols_shape d0).1 c hc
  have hlen : d'.rows.length = d0.rows.length :=
    hshape.2.trans (ensure_cols_shape d0).2
  refine ⟨hcols, hlen, ?_, ?_⟩
  · intro i hi c hc
    exact at?_isSome_of_mem d' i c (hcols c hc) hi
  · intro c hc hnc i hi
    have hi2 : i < (addCol (str "Vacancies") d0).rows.length := by
      rw [addCol_length]; exact hi
    have hi3 : i < (addCol (str "Vacancies_Confidence")
        (addCol (str "Vacancies") d0)).rows.length := by
      rw [addCol_length]; exact hi2
    have hi4 : i < (addCol (str "Vacancies_Type")
        (addCol (str "Vacancies_Confidence")
          (addCol (str "Vacancies") d0))).rows.length := by
      rw [addCol_length]; exact hi3
    simp only [OUT_COLS, List.mem_cons, List.not_mem_nil, or_false] at hc
    rcases hc with hc | hc | hc | hc <;> subst hc <;> unfold ensure_cols
    · rw [addCol_at_other _ _ _ _ (by decide), addCol_at_other _ _ _ _ (by decide),
        addCol_at_other _ _ _ _ (by decide)]
      exact addCol_at_new _ _ _ hnc hi
    · rw [addCol_at_other _ _ _ _ (by decide), addCol_at_other _ _ _ _ (by decide)]
      refine addCol_at_new _ _ _ ?_ hi2
      intro hmem
      rcases (by
        unfold addCol at hmem
        split at hmem
        · exact Or.inl hmem
        · rcases List.mem_append.mp hmem with hm | hm
          · exact Or.inl hm
          · exact Or.inr (List.mem_singleton.mp hm) :
            str "Vacancies_Confidence" ∈ d0.cols ∨
              str "Vacancies_Confidence" = str "Vacancies") with hm | hm
      · exact hnc hm
      · exact absurd hm (by decide)
    · rw [addCol_at_other _ _ _ _ (by decide)]
      refine addCol_at_new _ _ _ ?_ hi3
      intro hmem
      have hsplit : ∀ (dd : DF) (cadd cq : Str), cq ∈ (addCol cadd dd).cols →
          cq ∈ dd.cols ∨ cq = cadd := by
        intro dd cadd cq hq
        unfold addCol at hq
        split at hq
        · exact Or.inl hq
        · rcases List.mem_append.mp hq with hm | hm
          · exact Or.inl hm
          · exact Or.inr (List.mem_singleton.mp hm)
      rcases hsplit _ _ _ hmem with hm | hm
      · rcases hsplit _ _ _ hm with hm2 | hm2
        · exact hnc hm2
        · exact absurd hm2 (by decide)
      · exact absurd hm (by decide)
    · refine addCol_at_new _ _ _ ?_ hi4
      intro hmem
      have hsplit : ∀ (dd : DF) (cadd cq : Str), cq ∈ (addCol cadd dd).cols →
          cq ∈ dd.cols ∨ cq = cadd := by
        intro dd cadd cq hq
        unfold addCol at hq
        split at hq
        · exact Or.inl hq
        · rcases List.mem_append.mp hq with hm | hm
          · exact Or.inl hm
          · exact Or.inr (List.mem_singleton.mp hm)
      rcases hsplit _ _ _ hmem with hm | hm
      · rcases hsplit _ _ _ hm with hm2 | hm2
        · rcases hsplit _ _ _ hm2 with hm3 | hm3
          · exact hnc hm3
          · exact absurd hm3 (by decide)
        · exact absurd hm2 (by decide)
      · exact absurd hm (by decide)

/-- C5 (witness): running on a table that has only a `URL` column yields a
table carrying all four output columns. -/
theorem mainRun_columns_witness :
    str "Vacancies_Type" ∈ (ensure_cols (DF.mk [str "URL"] [])).cols :=
  (mainRun_columns httpNone 750 0 (DF.mk [str "URL"] [])
      (ensure_cols (DF.mk [str "URL"] [])) rfl).1 (str "Vacancies_Type")
    (by decide)

/-- Only the colon lowercases to a colon. -/
theorem lowerChar_eq_colon {c : Char} (h : lowerChar c = ':') : c = ':' := by
  rw [lowerChar.eq_def] at h
  split at h <;> first | assumption | exact absurd h (by decide)

/-- Only the slash lowercases to a slash. -/
theorem lowerChar_eq_slash {c : Char} (h : lowerChar c = '/') : c = '/' := by
  rw [lowerChar.eq_def] at h
  split at h <;> first | assumption | exact absurd h (by decide)

/-- A character whose lowercase form is a letter is itself a letter. -/
theorem isAlpha_of_lowerChar {c : Char} (h : (lowerChar c).isAlpha = true) :
    c.isAlpha = true := by
  rw [lowerChar.eq_def] at h
  split at h <;> assumption

/-- A character whose lowercase form is a scheme character is itself a
scheme character. -/
theorem schemeChar_of_lowerChar {c : Char} (h : schemeChar (lowerChar c) = true) :
    schemeChar c = true := by
  rw [lowerChar.eq_def] at h
  split at h <;> assumption

/-- The `leadsWith` detects exactly the pattern-prefixed strings. -/
theorem leadsWith_iff (p : Str) :
    ∀ l : Str, leadsWith p l = true ↔ ∃ q, l = p ++ q := by
  induction p with
  | nil =>
    intro l
    constructor
    · intro _; exact ⟨l, rfl⟩
    · intro _; cases l <;> rfl
  | cons a ps ih =>
    intro l
    cases l with
    | nil =>
      simp only [leadsWith]
      constructor
      · intro hfalse; cases hfalse
      · rintro ⟨q, hq⟩; cases hq
    | cons c cs =>
      simp only [leadsWith, Bool.and_eq_true, beq_iff_eq, ih cs]
      constructor
      · rintro ⟨rfl, q, rfl⟩; exact ⟨q, rfl⟩
      · rintro ⟨q, hq⟩
        injection hq with h1 h2
        exact ⟨h1.symm, q, h2⟩

/-- A pattern is always a prefix of itself followed by anything. -/
theorem leadsWith_append_self (p q : Str) : leadsWith p (p ++ q) = true :=
  (leadsWith_iff p (p ++ q)).mpr ⟨q, rfl⟩

/-- A substring of `l2` is a substring of `l1 ++ l2`. -/
theorem hasSub_append_right (pat l1 l2 : Str) (h : hasSub pat l2 = true) :
    hasSub pat (l1 ++ l2) = true := by
  induction l1 with
  | nil => exact h
  | cons c cs ih =>
    show (leadsWith pat (c :: (cs ++ l2)) || hasSub pat (cs ++ l2)) = true
    rw [ih]
    exact Bool.or_true _

/-- Unfolding equation of `removeWWW` on the `www.` pattern. -/
theorem removeWWW_cons_www (rest : Str) :
    removeWWW ('w' :: 'w' :: 'w' :: '.' :: rest) = removeWWW rest := rfl

/-- Unfolding equation of `removeWWW` on a head that does not open a
`www.` occurrence. -/
theorem removeWWW_cons_of_ne (c : Char) (cs : Str)
    (hne : ∀ rest, c = 'w' → cs = 'w' :: 'w' :: '.' :: rest → False) :
    removeWWW (c :: cs) = c :: removeWWW cs := by
  rw [removeWWW.eq_def]
  split
  · next rest heq =>
    exfalso
    injection heq with h1 h2
    exact hne rest h1 h2
  · next c2 cs2 hne2 heq =>
    injection heq with h1 h2
    rw [h1, h2]
  · next heq => cases heq

/-- The `removeWWW` leaves a string without `www.` untouched. -/
theorem removeWWW_eq_self :
    ∀ l : Str, hasSub (str "www.") l = false → removeWWW l = l := by
  intro l
  induction l using removeWWW.induct with
  | case1 rest ih =>
    intro h
    exfalso
    have hl : leadsWith (str "www.") ('w' :: 'w' :: 'w' :: '.' :: rest) = true := rfl
    rw [hasSub, hl, Bool.true_or] at h
    cases h
  | case2 c cs hne ih =>
    intro h
    have h2 : hasSub (str "www.") cs = false := by
      cases hall : hasSub (str "www.") cs with
      | false => rfl
      | true => rw [hasSub, hall, Bool.or_true] at h; cases h
    rw [removeWWW_cons_of_ne c cs hne, ih h2]
  | case3 => intro _; rfl

/-- Characters of `removeWWW l` come from `l`. -/
theorem mem_removeWWW_sub :
    ∀ (l : Str) (c : Char), c ∈ removeWWW l → c ∈ l := by
  intro l
  induction l using removeWWW.induct with
  | case1 rest ih =>
    intro c hc
    rw [removeWWW_cons_www] at hc
    simp only [List.mem_cons]
    exact Or.inr (Or.inr (Or.inr (Or.inr (ih c hc))))
  | case2 a cs hne ih =>
    intro c hc
    rw [removeWWW_cons_of_ne a cs hne] at hc
    rcases List.mem_cons.mp hc with hc | hc
    · exact List.mem_cons.mpr (Or.inl hc)
    · exact List.mem_cons.mpr (Or.inr (ih c hc))
  | case3 =>
    intro c hc
    cases hc

/-- A character other than `w` and `.` survives `removeWWW` exactly when it
is in the input. -/
theorem mem_removeWWW_iff :
    ∀ (l : Str) (c : Char), c ≠ 'w' → c ≠ '.' → (c ∈ removeWWW l ↔ c ∈ l) := by
  intro l
  induction l using removeWWW.induct with
  | case1 rest ih =>
    intro c hw hd
    rw [removeWWW_cons_www, ih c hw hd]
    simp only [List.mem_cons]
    constructor
    · intro h; exact Or.inr (Or.inr (Or.inr (Or.inr h)))
    · rintro (h | h | h | h | h) <;>
        first | (exact absurd h hw) | (exact absurd h hd) | exact h
  | case2 a cs hne ih =>
    intro c hw hd
    rw [removeWWW_cons_of_ne a cs hne]
    simp only [List.mem_cons, ih c hw hd]
  | case3 =>
    intro c hw hd
    exact Iff.rfl

/-- Inverting `lower` over an append: the original splits accordingly. -/
theorem lower_eq_append_inv (p : Str) :
    ∀ (t q : Str), lower t = p ++ q →
      ∃ t1 t2, t = t1 ++ t2 ∧ lower t1 = p ∧ lower t2 = q := by
  induction p with
  | nil =>
    intro t q h
    exact ⟨[], t, rfl, rfl, h⟩
  | cons x ps ih =>
    intro t q h
    cases t with
    | nil => cases h
    | cons c cs =>
      rw [lower, List.map_cons] at h
      injection h with h1 h2
      obtain ⟨t1, t2, ht, hl1, hl2⟩ := ih cs q h2
      refine ⟨c :: t1, t2, by rw [ht]; rfl, ?_, hl2⟩
      rw [lower, List.map_cons, h1]
      exact congrArg (List.cons x) hl1

/-- The `colonSplit` on a string whose prefix has no colon. -/
theorem colonSplit_append_no_colon :
    ∀ (t1 rest : Str), (∀ c ∈ t1, c ≠ ':') →
      colonSplit (t1 ++ ':' :: rest) = some (t1, rest) := by
  intro t1
  induction t1 with
  | nil => intro rest _; rfl
  | cons c cs ih =>
    intro rest hnc
    show colonSplit (c :: (cs ++ ':' :: rest)) = _
    rw [colonSplit, if_neg (hnc c (List.mem_cons_self c cs)),
      ih rest (fun x hx => hnc x (List.mem_cons_of_mem c hx))]
    rfl

/-- Scheme splitting through lowering: when the lowered string is a
nonempty all-letter word followed by `://`, `splitScheme` returns that word
with the remainder starting `//`. -/
theorem splitScheme_of_lower_word (t word q : Str)
    (hw : lower t = word ++ ':' :: '/' :: '/' :: q)
    (hne : word ≠ [])
    (halpha : ∀ x ∈ word, x.isAlpha = true) :
    ∃ t3, splitScheme t = (word, '/' :: '/' :: t3) := by
  obtain ⟨t1, t2, ht, hl1, hl2⟩ := lower_eq_append_inv word t (':' :: '/' :: '/' :: q) hw
  cases t2 with
  | nil => cases hl2
  | cons e t2a =>
    rw [lower, List.map_cons] at hl2
    injection hl2 with he hl2a
    have he2 : e = ':' := lowerChar_eq_colon he
    cases t2a with
    | nil => cases hl2a
    | cons f t2b =>
      rw [List.map_cons] at hl2a
      injection hl2a with hf hl2b
      have hf2 : f = '/' := lowerChar_eq_slash hf
      cases t2b with
      | nil => cases hl2b
      | cons g t3 =>
        rw [List.map_cons] at hl2b
        injection hl2b with hg hl3
        have hg2 : g = '/' := lowerChar_eq_slash hg
        subst he2 hf2 hg2 ht
        have hnc : ∀ c ∈ t1, c ≠ ':' := by
          intro c hc hceq
          have hmem : lowerChar c ∈ word := by
            rw [← hl1]
            exact List.mem_map_of_mem lowerChar hc
          have : lowerChar c = ':' := by rw [hceq]; rfl
          have halph := halpha _ hmem
          rw [this] at halph
          exact absurd halph (by decide)
        have hsplit := colonSplit_append_no_colon t1 ('/' :: '/' :: t3) hnc
        have ht1ne : t1 ≠ [] := by
          intro hnil
          rw [hnil] at hl1
          exact hne hl1.symm
        have hhead : ((t1.headD ' ').isAlpha = true) := by
          cases t1 with
          | nil => exact absurd rfl ht1ne
          | cons a t1a =>
            rw [lower, List.map_cons] at hl1
            have hmem : lowerChar a ∈ word := by
              rw [← hl1]
              exact List.mem_cons_self _ _
            exact isAlpha_of_lowerChar (by
              rw [List.headD_cons]
              exact halpha _ hmem)
        have hall : t1.all schemeChar = true := by
          rw [List.all_eq_true]
          intro c hc
          have hmem : lowerChar c ∈ word := by
            rw [← hl1]
            exact List.mem_map_of_mem lowerChar hc
          have halph := halpha _ hmem
          have hsc : schemeChar (lowerChar c) = true := by
            unfold schemeChar Char.isAlphanum
            rw [halph]
            rfl
          exact schemeChar_of_lowerChar hsc
        refine ⟨t3, ?_⟩
        unfold splitScheme
        rw [hsplit]
        split
        · next heq => exact Option.noConfusion heq
        · next pre post heq =>
          injection heq with hpp
          injection hpp with hp1 hp2
          subst hp1
          subst hp2
          rw [if_pos ⟨ht1ne, hhead, hall⟩, hl1]

/-- The `splitScheme` after prepending the scheme (the no-scheme branch of
`applyScheme`). -/
theorem splitScheme_prepended (t : Str) :
    splitScheme (str "https://" ++ t) = (str "https", '/' :: '/' :: t) := rfl

/-- Concrete computation of `splitScheme` on an `http://`-headed string. -/
theorem splitScheme_http_lit (x : Str) :
    splitScheme (str "http://" ++ x) = (str "http", '/' :: '/' :: x) := rfl

/-- The `splitNetloc` after a `//`: take up to the first stop character. -/
theorem splitNetloc_slash (x : Str) :
    splitNetloc ('/' :: '/' :: x)
      = (x.takeWhile (fun c => !stopChar c), x.dropWhile (fun c => !stopChar c)) := rfl

/-- Every character of a `splitNetloc` netloc is a non-stop character. -/
theorem splitNetloc_stopFree (rest : Str) :
    ∀ c ∈ (splitNetloc rest).1, stopChar c = false := by
  unfold splitNetloc
  split
  · intro c hc
    have := List.mem_takeWhile_imp hc
    simpa using this
  · intro c hc
    cases hc

/-- The scheme produced by parsing `applyScheme t` is `http` or `https`,
its netloc has no stop characters and passes the bracket check. -/
theorem urlparse_applyScheme (t : Str) (p : UrlParts)
    (h : urlparse (applyScheme t) = some p) :
    (p.scheme = str "http" ∨ p.scheme = str "https") ∧
    (∀ c ∈ p.netloc, stopChar c = false) ∧ bracketBad p.netloc = false := by
  simp only [urlparse] at h
  split at h
  · cases h
  · next hbr =>
    cases h
    refine ⟨?_, splitNetloc_stopFree _, by simpa using hbr⟩
    by_cases hs : startsHttpScheme t = true
    · have happ : applyScheme t = t := by
        unfold applyScheme
        rw [if_pos hs]
      rw [happ]
      unfold startsHttpScheme at hs
      rcases (by simpa using hs :
          leadsWith (str "http://") (lower t) = true ∨
            leadsWith (str "https://") (lower t) = true) with h1 | h1
      · obtain ⟨q, hq⟩ := (leadsWith_iff _ _).mp h1
        obtain ⟨t3, hsp⟩ :=
          splitScheme_of_lower_word t (str "http") q hq (by decide) (by decide)
        rw [hsp]
        exact Or.inl rfl
      · obtain ⟨q, hq⟩ := (leadsWith_iff _ _).mp h1
        obtain ⟨t3, hsp⟩ :=
          splitScheme_of_lower_word t (str "https") q hq (by decide) (by decide)
        rw [hsp]
        exact Or.inr rfl
    · have happ : applyScheme t = str "https://" ++ t := by
        unfold applyScheme
        rw [if_neg hs]
      rw [happ, splitScheme_prepended]
      exact Or.inr rfl

/-- Folding the right-trim step onto a nonempty accumulator appends. -/
theorem foldr_trim_of_ne_nil :
    ∀ (xs acc : Str), acc ≠ [] →
      xs.foldr (fun c acc => if acc.isEmpty && isWS c then acc else c :: acc) acc
        = xs ++ acc := by
  intro xs
  induction xs with
  | nil => intro acc h; rfl
  | cons c cs ih =>
    intro acc h
    rw [List.foldr_cons, ih acc h]
    have hne : (cs ++ acc).isEmpty = false := by
      rw [List.isEmpty_eq_false]
      intro hx
      exact h (List.append_eq_nil.mp hx).2
    simp [hne]

/-- The `trimRight` over an append folds onto the trimmed tail. -/
theorem trimRight_append (l1 l2 : Str) :
    trimRight (l1 ++ l2)
      = l1.foldr (fun c acc => if acc.isEmpty && isWS c then acc else c :: acc)
          (trimRight l2) :=
  List.foldr_append _ _ _ _

/-- Unfolding equation of `trimRight`. -/
theorem trimRight_cons (c : Char) (cs : Str) :
    trimRight (c :: cs)
      = if (trimRight cs).isEmpty && isWS c then trimRight cs
        else c :: trimRight cs := rfl

/-- The `trimRight` is idempotent. -/
theorem trimRight_idem : ∀ l : Str, trimRight (trimRight l) = trimRight l := by
  intro l
  induction l with
  | nil => rfl
  | cons c cs ih =>
    rw [trimRight_cons]
    by_cases h : ((trimRight cs).isEmpty && isWS c) = true
    · rw [if_pos h]
      have h0 : trimRight cs = [] := by
        have h' := h
        simp only [Bool.and_eq_true] at h'
        simpa using h'.1
      rw [h0]
      rfl
    · rw [if_neg h, trimRight_cons, ih, if_neg h]

/-- The `trim` of a string with a non-whitespace head whose tail block is
already right-trimmed and nonempty. -/
theorem trim_cons_append (a : Char) (ha : isWS a = false) (ys X : Str)
    (hX : trimRight X = X) (hXne : X ≠ []) :
    trim ((a :: ys) ++ X) = (a :: ys) ++ X := by
  unfold trim
  rw [show ((a :: ys) ++ X).dropWhile isWS = (a :: ys) ++ X from by
    rw [List.cons_append, List.dropWhile_cons, ha]
    rfl]
  rw [trimRight_append, hX]
  exact foldr_trim_of_ne_nil (a :: ys) X hXne

/-- The `takeWhile` of non-stop characters stops exactly at the appended
slash. -/
theorem takeWhile_nostop_append (host ys : Str)
    (hstop : ∀ c ∈ host, stopChar c = false) :
    (host ++ '/' :: ys).takeWhile (fun c => !stopChar c) = host := by
  induction host with
  | nil => rfl
  | cons c cs ih =>
    rw [List.cons_append, List.takeWhile_cons]
    have hc := hstop c (List.mem_cons_self c cs)
    rw [hc]
    simp only [Bool.not_false, if_true]
    rw [ih (fun x hx => hstop x (List.mem_cons_of_mem c hx))]

/-- Re-normalizing `scheme://host/path` returns `scheme://host` when the
host has no stop characters, balanced brackets and no `www.` occurrence. -/
theorem norm_root_reparse (sch host : Str)
    (hsch : sch = str "http" ∨ sch = str "https")
    (hstop : ∀ c ∈ host, stopChar c = false)
    (hbr : bracketBad host = false)
    (hwww : hasSub (str "www.") host = false) :
    norm_root (sch ++ (str "://" ++ (host ++ str "/path")))
      = some (sch ++ (str "://" ++ host)) := by
  have htX : trimRight (host ++ str "/path") = host ++ str "/path" := by
    rw [trimRight_append]
    rw [show trimRight (str "/path") = str "/path" from rfl]
    exact foldr_trim_of_ne_nil host (str "/path") (by decide)
  have hXne : host ++ str "/path" ≠ [] := by
    intro hx
    exact absurd (List.append_eq_nil.mp hx).2 (by decide)
  rcases hsch with hs | hs <;> subst hs
  · have htrim : trim (str "http://" ++ (host ++ str "/path"))
        = str "http://" ++ (host ++ str "/path") :=
      trim_cons_append 'h' (by decide) (str "ttp://") (host ++ str "/path") htX hXne
    have hstart : startsHttpScheme (str "http://" ++ (host ++ str "/path")) = true := by
      unfold startsHttpScheme
      rw [show lower (str "http://" ++ (host ++ str "/path"))
          = str "http://" ++ lower (host ++ str "/path") from by
        unfold lower
        rw [List.map_append]
        rfl]
      rw [leadsWith_append_self]
      rfl
    have hparse : urlparse (str "http://" ++ (host ++ str "/path"))
        = some ⟨str "http", host⟩ := by
      simp only [urlparse, splitScheme_http_lit, splitNetloc_slash]
      rw [show host ++ str "/path" = host ++ '/' :: str "path" from rfl,
        takeWhile_nostop_append host (str "path") hstop]
      rw [hbr]
      rfl
    show norm_root (str "http://" ++ (host ++ str "/path")) = _
    simp only [norm_root, htrim]
    rw [if_neg (by
      rw [List.isEmpty_eq_true]
      intro hx
      exact absurd (List.append_eq_nil.mp hx).1 (by decide))]
    rw [show applyScheme (str "http://" ++ (host ++ str "/path"))
        = str "http://" ++ (host ++ str "/path") from by
      unfold applyScheme
      rw [if_pos hstart]]
    rw [hparse]
    show some (str "http" ++ (str "://" ++ removeWWW host)) = _
    rw [removeWWW_eq_self host hwww]
  · have htrim : trim (str "https://" ++ (host ++ str "/path"))
        = str "https://" ++ (host ++ str "/path") :=
      trim_cons_append 'h' (by decide) (str "ttps://") (host ++ str "/path") htX hXne
    have hstart : startsHttpScheme (str "https://" ++ (host ++ str "/path")) = true := by
      unfold startsHttpScheme
      rw [show lower (str "https://" ++ (host ++ str "/path"))
          = str "https://" ++ lower (host ++ str "/path") from by
        unfold lower
        rw [List.map_append]
        rfl]
      rw [leadsWith_append_self]
      rw [Bool.or_true]
    have hparse : urlparse (str "https://" ++ (host ++ str "/path"))
        = some ⟨str "https", host⟩ := by
      simp only [urlparse, splitScheme_prepended, splitNetloc_slash]
      rw [show host ++ str "/path" = host ++ '/' :: str "path" from rfl,
        takeWhile_nostop_append host (str "path") hstop]
      rw [hbr]
      rfl
    show norm_root (str "https://" ++ (host ++ str "/path")) = _
    simp only [norm_root, htrim]
    rw [if_neg (by
      rw [List.isEmpty_eq_true]
      intro hx
      exact absurd (List.append_eq_nil.mp hx).1 (by decide))]
    rw [show applyScheme (str "https://" ++ (host ++ str "/path"))
        = str "https://" ++ (host ++ str "/path") from by
      unfold applyScheme
      rw [if_pos hstart]]
    rw [hparse]
    show some (str "https" ++ (str "://" ++ removeWWW host)) = _
    rw [removeWWW_eq_self host hwww]

/-- Inversion of a successful, nonempty `norm_root`. -/
theorem norm_root_inv (s r : Str) (h1 : norm_root s = some r) (h2 : r ≠ []) :
    ∃ p, urlparse (applyScheme (trim s)) = some p ∧
      r = p.scheme ++ str "://" ++ removeWWW p.netloc := by
  simp only [norm_root] at h1
  split at h1
  · cases h1
    exact absurd rfl h2
  · cases hp : urlparse (applyScheme (trim s)) with
    | none => rw [hp] at h1; exact Option.noConfusion h1
    | some p =>
      rw [hp] at h1
      exact ⟨p, rfl, (Option.some.inj h1).symm⟩

/-- C8 (counterexample): normalization is not idempotent in the claimed
sense at `x = ""` — the inner call yields the empty string, and
re-normalizing `"" + "/path"` gives `https://`, not the empty string. -/
theorem norm_root_idem_counterexample :
    norm_root (str "") = some (str "") ∧
    norm_root (str "" ++ str "/path") = some (str "https://") ∧
    norm_root (str "" ++ str "/path") ≠ norm_root (str "") :=
  ⟨by decide, by decide, by decide⟩

/-- C8 (amended): for every input whose normalized root is nonempty and
contains no occurrence of `www.`, re-normalizing `root + "/path"` returns
the root unchanged. -/
theorem norm_root_idem_amended (s r : Str) (h1 : norm_root s = some r)
    (h2 : r ≠ []) (h3 : hasSub (str "www.") r = false) :
    norm_root (r ++ str "/path") = some r := by
  obtain ⟨p, hp, hr⟩ := norm_root_inv s r h1 h2
  obtain ⟨hsch, hstop0, hbr0⟩ := urlparse_applyScheme _ _ hp
  have hstop : ∀ c ∈ removeWWW p.netloc, stopChar c = false :=
    fun c hc => hstop0 c (mem_removeWWW_sub _ c hc)
  have hbr : bracketBad (removeWWW p.netloc) = false := by
    have h91 : ('[' ∈ removeWWW p.netloc ↔ '[' ∈ p.netloc) :=
      mem_removeWWW_iff _ _ (by decide) (by decide)
    have h92 : (']' ∈ removeWWW p.netloc ↔ ']' ∈ p.netloc) :=
      mem_removeWWW_iff _ _ (by decide) (by decide)
    unfold bracketBad at hbr0 ⊢
    simp only [h91, h92]
    exact hbr0
  have hwww : hasSub (str "www.") (removeWWW p.netloc) = false := by
    cases hx : hasSub (str "www.") (removeWWW p.netloc) with
    | false => rfl
    | true =>
      exfalso
      have hsr : hasSub (str "www.") r = true := by
        rw [hr]
        exact hasSub_append_right _ (p.scheme ++ str "://") _ hx
      rw [hsr] at h3
      cases h3
  have hB := norm_root_reparse p.scheme (removeWWW p.netloc) hsch hstop hbr hwww
  rw [hr]
  rw [show (p.scheme ++ str "://" ++ removeWWW p.netloc) ++ str "/path"
      = p.scheme ++ (str "://" ++ (removeWWW p.netloc ++ str "/path")) from by
    simp [List.append_assoc]]
  rw [hB, List.append_assoc]

/-- C8 (witness): the amended idempotence at the concrete input
`example.org`. -/
theorem norm_root_idem_amended_witness :
    norm_root (str "https://example.org" ++ str "/path")
      = some (str "https://example.org") :=
  norm_root_idem_amended (str "example.org") (str "https://example.org")
    (by decide) (by decide) (by decide)

/-- C6 (counterexample): the main script's `norm_root` removes a
non-leading `www.` (the claim says only a leading one is stripped), and it
raises on the input `[` (the claim says it never raises).  The variant
script's `norm_root` strips only a leading `www.`, so the two scripts
disagree on the same input. -/
theorem norm_root_counterexample :
    norm_root (str "a.www.b") = some (str "https://a.b") ∧
    norm_root_claimed (str "a.www.b") = str "https://a.www.b" ∧
    some (norm_root_claimed (str "a.www.b")) ≠ norm_root (str "a.www.b") ∧
    norm_root (str "[") = none ∧
    norm_root_v2 (str "a.www.b") = some (str "https://a.www.b") :=
  ⟨by decide, by decide, by decide, by decide, by decide⟩

/-- C6 (amended): `norm_root` returns the empty string on empty/whitespace
input; when no `http(s)` scheme prefix is present it behaves as if
`https://` were prepended; every successful nonempty result is
`scheme://host` where the scheme is `http` or `https` and the host is the
parsed netloc with every occurrence of `www.` removed and no path
characters; and it raises (`ValueError` from `urlparse`) exactly when the
parsed netloc has mismatched square brackets. -/
theorem norm_root_behavior :
    (∀ s : Str, trim s = [] → norm_root s = some []) ∧
    (∀ s : Str, trim s ≠ [] → startsHttpScheme (trim s) = false →
      norm_root s = norm_root (str "https://" ++ trim s)) ∧
    (∀ s r : Str, norm_root s = some r → r ≠ [] →
      ∃ p, urlparse (applyScheme (trim s)) = some p ∧
        r = p.scheme ++ str "://" ++ removeWWW p.netloc ∧
        (p.scheme = str "http" ∨ p.scheme = str "https") ∧
        (∀ c ∈ removeWWW p.netloc, stopChar c = false)) ∧
    (∀ s : Str, norm_root s = none →
      trim s ≠ [] ∧
      bracketBad (splitNetloc (splitScheme (applyScheme (trim s))).2).1 = true) := by
  refine ⟨?_, ?_, ?_, ?_⟩
  · intro s h
    simp [norm_root, h]
  · intro s h1 h2
    have happ : applyScheme (trim s) = str "https://" ++ trim s := by
      unfold applyScheme
      rw [if_neg (by simp [h2])]
    have htR : trimRight (trim s) = trim s := by
      unfold trim
      exact trimRight_idem _
    have htrimR : trim (str "https://" ++ trim s) = str "https://" ++ trim s :=
      trim_cons_append 'h' (by decide) (str "ttps://") (trim s) htR h1
    have hstart : startsHttpScheme (str "https://" ++ trim s) = true := by
      unfold startsHttpScheme
      rw [show lower (str "https://" ++ trim s)
          = str "https://" ++ lower (trim s) from by
        unfold lower
        rw [List.map_append]
        rfl]
      rw [leadsWith_append_self, Bool.or_true]
    have happ2 : applyScheme (str "https://" ++ trim s)
        = str "https://" ++ trim s := by
      unfold applyScheme
      rw [if_pos hstart]
    simp only [norm_root, htrimR, happ, happ2]
    rw [if_neg (by simp [h1]), if_neg (by
      rw [List.isEmpty_eq_true]
      intro hx
      exact absurd (List.append_eq_nil.mp hx).1 (by decide))]
  · intro s r h1 h2
    obtain ⟨p, hp, hr⟩ := norm_root_inv s r h1 h2
    obtain ⟨hsch, hstop, _⟩ := urlparse_applyScheme _ _ hp
    exact ⟨p, hp, hr, hsch, fun c hc => hstop c (mem_removeWWW_sub _ c hc)⟩
  · intro s h
    simp only [norm_root] at h
    split at h
    · exact Option.noConfusion h
    · next hemp =>
      refine ⟨by simpa using hemp, ?_⟩
      cases hu : urlparse (applyScheme (trim s)) with
      | some p => rw [hu] at h; exact Option.noConfusion h
      | none =>
        simp only [urlparse] at hu
        split at hu
        · next hcond => exact hcond
        · exact Option.noConfusion hu

/-- C6 (witness): a whitespace-only input normalizes to the empty string. -/
theorem norm_root_behavior_witness : norm_root (str "   ") = some [] :=
  norm_root_behavior.1 (str "   ") (by decide)

end UJP
